import Mathlib

/-
Verification of the Seamless accessibility cluster graph engine.

The Python sources under `network/` are shallowly embedded here:
  * `network_gen.py`  — ingestion of typed points and Delaunay-edge graph construction;
  * `analysis.py`     — Louvain community detection (igraph) and per-cluster metrics;
  * `clean_cluster_data.py` — minimum-radius filter, raw accessibility scores and
    batch z-score normalization.

Python floats are modelled as rationals wherever the code stays in field
operations, and as real numbers where `math.sqrt` appears.  External library
calls (geopy's great-circle distance, scipy's Delaunay triangulation, igraph's
multilevel community detection) are modelled by parameters or by definitions
whose doc comments name the modelled contract.
-/

namespace Seamless

/-! ## clean_cluster_data.py : per-cluster raw score ingredients

`itertools.combinations(l, 2)` enumerates the unordered pairs of a list. -/

def pairs {α : Type} : List α → List (α × α)
  | [] => []
  | x :: xs => (xs.map (fun y => (x, y))) ++ pairs xs

/-- From `calculate_mean_pairwise_distance` in clean_cluster_data.py.  The
great-circle distance of geopy is an external call, passed in as `d`. -/
def calculate_mean_pairwise_distance (d : ℚ × ℚ → ℚ × ℚ → ℚ)
    (member_coordinates : List (ℚ × ℚ)) : ℚ :=
  if member_coordinates.length < 2 then 0
  else ((pairs member_coordinates).map (fun p => d p.1 p.2)).sum
    / ((pairs member_coordinates).length : ℚ)

/-- From `calculate_proximity_factor` in clean_cluster_data.py. -/
def calculate_proximity_factor (d : ℚ × ℚ → ℚ × ℚ → ℚ)
    (member_coordinates : List (ℚ × ℚ)) : ℚ :=
  1 / (1 + calculate_mean_pairwise_distance d member_coordinates)

/-- From `calculate_diversity_index` in clean_cluster_data.py; the feature-count
dict is an association list. -/
def calculate_diversity_index (feature_counts : List (String × ℕ)) : ℚ :=
  let total := (feature_counts.map Prod.snd).sum
  if 0 < total then
    (((feature_counts.filter (fun p => 0 < p.2)).length : ℚ) / (total : ℚ))
  else 0

/-! ## clean_cluster_data.py : minimum-radius filter (line 59) -/

structure RawCluster where
  cluster_id : ℕ
  radius_meters : ℚ
  members : List ℕ
  feature_counts : List (String × ℕ)

/-- The first pass of clean_cluster_data.py only processes and appends a cluster
when `data[i]["radius_meters"] > 10`; this is the set of clusters that reach
scoring and normalization. -/
def surviving_clusters (data : List RawCluster) : List RawCluster :=
  data.filter (fun c => 10 < c.radius_meters)

/-! ## analysis.py : fixed feature enumeration and per-cluster feature counts -/

/-- The fixed twelve-category enumeration from `calculate_cluster_metrics`. -/
def feature_types : List String :=
  ["tactile_paving", "disabled_parking", "accessible_toilets", "ramps",
   "elevators", "accessible_stops", "audio_traffic_signals", "emergency_phones",
   "accessible_entrances", "hearing_loops", "sign_language_services",
   "accessible_hospitals"]

/-- One step of `feature_counts[feature_type] += 1`, guarded by
`if feature_type in feature_counts` (an unknown type is silently skipped). -/
def bump_count (counts : List (String × ℕ)) (t : String) : List (String × ℕ) :=
  counts.map (fun p => if p.1 = t then (p.1, p.2 + 1) else p)

/-- The feature-count tally of `calculate_cluster_metrics`: a dict initialized
with every category at 0, then one increment per member. -/
def count_features (member_types : List String) : List (String × ℕ) :=
  member_types.foldl bump_count (feature_types.map (fun f => (f, 0)))

/-- The member types are looked up from the graph vertex attribute
`g.vs[idx]["feature_type"]`, here a list indexed by vertex id. -/
def calculate_cluster_metrics_counts (vertex_feature_type : List String)
    (cluster_indices : List ℕ) : List (String × ℕ) :=
  count_features (cluster_indices.map (fun i => vertex_feature_type.getD i ""))

/-! ### Lemmas about the feature-count tally -/

lemma bump_count_keys (counts : List (String × ℕ)) (t : String) :
    (bump_count counts t).map Prod.fst = counts.map Prod.fst := by
  simp only [bump_count, List.map_map]
  refine List.map_congr_left ?_
  intro p _
  by_cases h : p.1 = t <;> simp [h]

lemma bump_count_of_not_mem {counts : List (String × ℕ)} {t : String}
    (h : t ∉ counts.map Prod.fst) : bump_count counts t = counts := by
  induction counts with
  | nil => rfl
  | cons p rest ih =>
    simp only [List.map_cons, List.mem_cons, not_or] at h
    have hp : ¬ p.1 = t := fun hp => h.1 hp.symm
    simp only [bump_count, List.map_cons, if_neg hp]
    exact congrArg (p :: ·) (ih h.2)

lemma bump_count_sum {counts : List (String × ℕ)} {t : String}
    (hnd : (counts.map Prod.fst).Nodup) (ht : t ∈ counts.map Prod.fst) :
    ((bump_count counts t).map Prod.snd).sum = ((counts.map Prod.snd).sum) + 1 := by
  induction counts with
  | nil => simp at ht
  | cons p rest ih =>
    simp only [List.map_cons, List.nodup_cons] at hnd
    simp only [List.map_cons, List.mem_cons] at ht
    by_cases hp : p.1 = t
    · have hrest : t ∉ rest.map Prod.fst := hp ▸ hnd.1
      simp only [bump_count, List.map_cons, if_pos hp]
      rw [show List.map (fun q => if q.1 = t then (q.1, q.2 + 1) else q) rest
            = bump_count rest t from rfl, bump_count_of_not_mem hrest]
      simp [List.sum_cons]
      ring
    · rcases ht with ht | ht
      · exact absurd ht.symm hp
      · simp only [bump_count, List.map_cons, if_neg hp]
        rw [show List.map (fun q => if q.1 = t then (q.1, q.2 + 1) else q) rest
              = bump_count rest t from rfl]
        have := ih hnd.2 ht
        simp only [List.sum_cons]
        omega

lemma foldl_bump_keys (l : List String) (init : List (String × ℕ)) :
    ((l.foldl bump_count init).map Prod.fst) = init.map Prod.fst := by
  induction l generalizing init with
  | nil => rfl
  | cons a l ih => simpa [List.foldl_cons, bump_count_keys] using
      (ih (bump_count init a)).trans (bump_count_keys init a)

lemma foldl_bump_sum (l : List String) (init : List (String × ℕ))
    (hnd : (init.map Prod.fst).Nodup) (h : ∀ t ∈ l, t ∈ init.map Prod.fst) :
    (((l.foldl bump_count init).map Prod.snd).sum)
      = ((init.map Prod.snd).sum) + l.length := by
  induction l generalizing init with
  | nil => simp
  | cons a l ih =>
    simp only [List.foldl_cons]
    have hkeys := bump_count_keys init a
    have h1 := ih (bump_count init a) (hkeys ▸ hnd)
      (fun t ht => hkeys ▸ (h t (List.mem_cons_of_mem a ht)))
    rw [h1, bump_count_sum hnd (h a (List.mem_cons_self a l))]
    simp only [List.length_cons]
    omega

lemma feature_types_nodup : feature_types.Nodup := by decide

lemma count_features_keys (l : List String) :
    (count_features l).map Prod.fst = feature_types := by
  unfold count_features
  rw [foldl_bump_keys, List.map_map]
  exact List.map_id feature_types

lemma count_features_sum {l : List String} (h : ∀ t ∈ l, t ∈ feature_types) :
    ((count_features l).map Prod.snd).sum = l.length := by
  unfold count_features
  have hkeys : (feature_types.map (fun f => (f, 0))).map Prod.fst = feature_types := by
    rw [List.map_map]
    exact List.map_id feature_types
  rw [foldl_bump_sum _ _ (hkeys ▸ feature_types_nodup) (fun t ht => hkeys ▸ h t ht)]
  have h0 : ((feature_types.map (fun f => (f, (0 : ℕ)))).map Prod.snd).sum = 0 := by
    apply List.sum_eq_zero
    intro x hx
    simp only [List.map_map, List.mem_map, Function.comp] at hx
    obtain ⟨f, _, hf⟩ := hx
    exact hf.symm
  rw [h0]
  omega

/-! ### Raw-score bound lemmas -/

lemma filter_pos_length_le_sum (l : List (String × ℕ)) :
    (l.filter (fun p => 0 < p.2)).length ≤ (l.map Prod.snd).sum := by
  induction l with
  | nil => simp
  | cons p rest ih =>
    by_cases hp : 0 < p.2
    · simp only [List.filter_cons, List.map_cons, List.sum_cons]
      rw [if_pos (by simpa using hp)]
      simp only [List.length_cons]
      omega
    · simp only [List.filter_cons, List.map_cons, List.sum_cons]
      rw [if_neg (by simpa using hp)]
      omega

lemma mean_pairwise_nonneg (d : ℚ × ℚ → ℚ × ℚ → ℚ)
    (hd : ∀ a b, 0 ≤ d a b) (coords : List (ℚ × ℚ)) :
    0 ≤ calculate_mean_pairwise_distance d coords := by
  unfold calculate_mean_pairwise_distance
  split
  · exact le_refl 0
  · apply div_nonneg
    · apply List.sum_nonneg
      intro x hx
      obtain ⟨p, _, hp⟩ := List.mem_map.mp hx
      exact hp ▸ hd p.1 p.2
    · exact Nat.cast_nonneg _

lemma proximity_factor_bounds (d : ℚ × ℚ → ℚ × ℚ → ℚ)
    (hd : ∀ a b, 0 ≤ d a b) (coords : List (ℚ × ℚ)) :
    0 < calculate_proximity_factor d coords ∧ calculate_proximity_factor d coords ≤ 1 := by
  have hm := mean_pairwise_nonneg d hd coords
  unfold calculate_proximity_factor
  constructor
  · apply div_pos one_pos
    linarith
  · rw [div_le_one (by linarith)]
    linarith

lemma diversity_index_bounds (feature_counts : List (String × ℕ)) :
    0 ≤ calculate_diversity_index feature_counts
      ∧ calculate_diversity_index feature_counts ≤ 1 := by
  unfold calculate_diversity_index
  dsimp only
  by_cases htot : 0 < (feature_counts.map Prod.snd).sum
  · rw [if_pos htot]
    have hle := filter_pos_length_le_sum feature_counts
    constructor
    · apply div_nonneg (Nat.cast_nonneg _) (Nat.cast_nonneg _)
    · rw [div_le_one (by exact_mod_cast htot)]
      exact_mod_cast hle
  · rw [if_neg htot]
    exact ⟨le_refl 0, zero_le_one⟩

/-- C10: raw-score bounds.  The mean pairwise great-circle distance is
nonnegative (and 0 for fewer than two members), so the proximity factor lies in
(0, 1]; the diversity index lies in [0, 1] because the number of categories with
a positive count never exceeds the total feature count; hence the raw
accessibility score, their sum, lies in (0, 2]. -/
theorem raw_score_bounds (d : ℚ × ℚ → ℚ × ℚ → ℚ)
    (hd : ∀ a b, 0 ≤ d a b) (coords : List (ℚ × ℚ)) (_hne : coords ≠ [])
    (feature_counts : List (String × ℕ)) :
    0 < calculate_proximity_factor d coords
      ∧ calculate_proximity_factor d coords ≤ 1
      ∧ 0 ≤ calculate_diversity_index feature_counts
      ∧ calculate_diversity_index feature_counts ≤ 1
      ∧ 0 < calculate_proximity_factor d coords + calculate_diversity_index feature_counts
      ∧ calculate_proximity_factor d coords + calculate_diversity_index feature_counts ≤ 2 := by
  obtain ⟨hp1, hp2⟩ := proximity_factor_bounds d hd coords
  obtain ⟨hd1, hd2⟩ := diversity_index_bounds feature_counts
  exact ⟨hp1, hp2, hd1, hd2, by linarith, by linarith⟩

/-- Witness for `raw_score_bounds`: a single-member cluster with one feature
present, under the everywhere-zero distance function. -/
theorem raw_score_bounds_witness :
    (∀ a b : ℚ × ℚ, 0 ≤ (fun (_ _ : ℚ × ℚ) => (0 : ℚ)) a b)
      ∧ ([((0 : ℚ), (0 : ℚ))] ≠ [])
      ∧ (0 < calculate_proximity_factor (fun _ _ => 0) [(0, 0)]
          ∧ calculate_proximity_factor (fun _ _ => 0) [(0, 0)] ≤ 1
          ∧ 0 ≤ calculate_diversity_index [("ramps", 1)]
          ∧ calculate_diversity_index [("ramps", 1)] ≤ 1
          ∧ 0 < calculate_proximity_factor (fun _ _ => 0) [(0, 0)]
              + calculate_diversity_index [("ramps", 1)]
          ∧ calculate_proximity_factor (fun _ _ => 0) [(0, 0)]
              + calculate_diversity_index [("ramps", 1)] ≤ 2) :=
  ⟨fun _ _ => le_refl 0, by simp,
    raw_score_bounds (fun _ _ => 0) (fun _ _ => le_refl 0) [(0, 0)] (by simp) [("ramps", 1)]⟩

/-- C7: minimum-radius filter.  A cluster record reaches scoring (is in the
surviving list) exactly when its `radius_meters` is strictly greater than 10;
clusters with radius at most 10 are discarded before scores are computed. -/
theorem minimum_radius_filter (data : List RawCluster) (c : RawCluster) :
    c ∈ surviving_clusters data ↔ c ∈ data ∧ 10 < c.radius_meters := by
  simp [surviving_clusters, List.mem_filter]

/-- C4: feature-count completeness.  For a cluster whose members all carry a
feature type from the fixed enumeration (as every vertex produced by the
pipeline does), the produced count mapping has exactly the twelve categories as
keys, every count is nonnegative, and the counts sum to the number of member
vertices. -/
theorem feature_counts_complete (vertex_feature_type : List String)
    (cluster_indices : List ℕ)
    (h : ∀ i ∈ cluster_indices, vertex_feature_type.getD i "" ∈ feature_types) :
    (calculate_cluster_metrics_counts vertex_feature_type cluster_indices).map Prod.fst
        = feature_types
      ∧ (calculate_cluster_metrics_counts vertex_feature_type cluster_indices).length = 12
      ∧ (∀ p ∈ calculate_cluster_metrics_counts vertex_feature_type cluster_indices, 0 ≤ p.2)
      ∧ ((calculate_cluster_metrics_counts vertex_feature_type cluster_indices).map
          Prod.snd).sum = cluster_indices.length := by
  unfold calculate_cluster_metrics_counts
  refine ⟨count_features_keys _, ?_, fun p _ => Nat.zero_le _, ?_⟩
  · have hk := count_features_keys (cluster_indices.map
      (fun i => vertex_feature_type.getD i ""))
    have : ((count_features (cluster_indices.map
        (fun i => vertex_feature_type.getD i ""))).map Prod.fst).length
          = feature_types.length := by rw [hk]
    simpa using this
  · rw [count_features_sum ?_, List.length_map]
    intro t ht
    obtain ⟨i, hi, rfl⟩ := List.mem_map.mp ht
    exact h i hi

/-- Witness for `feature_counts_complete`: two vertices typed ramps and
tactile_paving, a three-member cluster. -/
theorem feature_counts_complete_witness :
    (∀ i ∈ [0, 1, 0], (["ramps", "tactile_paving"].getD i "") ∈ feature_types)
      ∧ ((calculate_cluster_metrics_counts ["ramps", "tactile_paving"] [0, 1, 0]).map
            Prod.fst = feature_types
        ∧ (calculate_cluster_metrics_counts ["ramps", "tactile_paving"] [0, 1, 0]).length = 12
        ∧ (∀ p ∈ calculate_cluster_metrics_counts ["ramps", "tactile_paving"] [0, 1, 0],
            0 ≤ p.2)
        ∧ ((calculate_cluster_metrics_counts ["ramps", "tactile_paving"] [0, 1, 0]).map
            Prod.snd).sum = ([0, 1, 0] : List ℕ).length) :=
  ⟨by decide, feature_counts_complete ["ramps", "tactile_paving"] [0, 1, 0] (by decide)⟩

/-! ## network_gen.py : ingestion and Delaunay-edge graph construction -/

/-- The ingestion loop of network_gen.py (lines 22-28): for every feature key
whose element list is non-empty, append each element's (lat, lon) to
`coordinates` and the feature key to `feature_types`.  No field is validated. -/
def extract_points (data : List (String × List (ℚ × ℚ))) : List (ℚ × ℚ) × List String :=
  data.foldl (fun acc fi =>
    if fi.2.length ≠ 0 then
      (acc.1 ++ fi.2.map (fun item => (item.1, item.2)),
       acc.2 ++ fi.2.map (fun _ => fi.1))
    else acc) ([], [])

/-- Twice the signed area of the triangle a, b, c. -/
def cross_z (a b c : ℚ × ℚ) : ℚ :=
  (b.1 - a.1) * (c.2 - a.2) - (b.2 - a.2) * (c.1 - a.1)

/-- Modelled from the documented behaviour of `scipy.spatial.Delaunay` (external
library, called at network_gen.py line 41 with no exception handling): qhull
cannot build an initial simplex, and raises `QhullError`, when the input has
fewer than 3 points or when all points are collinear (which covers duplicate
coordinates that leave fewer than 3 distinct points). -/
def qhull_degenerate (pts : List (ℚ × ℚ)) : Bool :=
  decide (pts.length < 3)
    || pts.all (fun a => pts.all (fun b => pts.all (fun c => decide (cross_z a b c = 0))))

/-- The edge extraction of network_gen.py lines 44-48: a Python `set` of ordered
index pairs, three directed sides per triangle. -/
def edges_of_simplices (tri : List (ℕ × ℕ × ℕ)) : Finset (ℕ × ℕ) :=
  tri.foldl (fun s t =>
    insert (t.1, t.2.1) (insert (t.2.1, t.2.2) (insert (t.2.2, t.1) s))) ∅

/-- The graph-building script: extract points, run Delaunay (whose simplices,
computed by the external qhull, are the parameter `tri`), and build the graph
as vertex count plus edge set.  A degenerate input makes the uncaught
`QhullError` escape, so no graph is produced. -/
def network_gen (data : List (String × List (ℚ × ℚ))) (tri : List (ℕ × ℕ × ℕ)) :
    Except String (ℕ × Finset (ℕ × ℕ)) :=
  let pts := (extract_points data).1
  if qhull_degenerate pts then Except.error "QhullError"
  else Except.ok (pts.length, edges_of_simplices tri)

lemma mem_edges_foldl (tri : List (ℕ × ℕ × ℕ)) (acc : Finset (ℕ × ℕ)) (e : ℕ × ℕ)
    (he : e ∈ tri.foldl (fun s t =>
      insert (t.1, t.2.1) (insert (t.2.1, t.2.2) (insert (t.2.2, t.1) s))) acc) :
    e ∈ acc ∨ ∃ t ∈ tri, e = (t.1, t.2.1) ∨ e = (t.2.1, t.2.2) ∨ e = (t.2.2, t.1) := by
  induction tri generalizing acc with
  | nil => exact Or.inl he
  | cons t rest ih =>
    rcases ih _ he with hacc | ⟨t', ht', hshape⟩
    · simp only [Finset.mem_insert] at hacc
      rcases hacc with h | h | h | h
      · exact Or.inr ⟨t, List.mem_cons_self t rest, Or.inl h⟩
      · exact Or.inr ⟨t, List.mem_cons_self t rest, Or.inr (Or.inl h)⟩
      · exact Or.inr ⟨t, List.mem_cons_self t rest, Or.inr (Or.inr h)⟩
      · exact Or.inl h
    · exact Or.inr ⟨t', List.mem_cons_of_mem t ht', hshape⟩

/-- C6 counterexample: two triangles that share the edge between vertices 0 and
1 and traverse it in opposite directions (exactly what consistently oriented
Delaunay triangles do).  Both ordered pairs (0, 1) and (1, 0) survive the Python
`set`, so `g.add_edges` creates two parallel edges: duplicates are NOT collapsed
across orientations and the built graph is not simple. -/
theorem edge_orientation_not_collapsed :
    (0, 1) ∈ edges_of_simplices [(0, 1, 2), (1, 0, 3)]
      ∧ (1, 0) ∈ edges_of_simplices [(0, 1, 2), (1, 0, 3)]
      ∧ (edges_of_simplices [(0, 1, 2), (1, 0, 3)]).card = 6 := by decide

/-- C6 amended: every edge produced from simplices with distinct, in-range
vertex indices (which Delaunay triangles of an N-point set are) has two distinct
endpoints that are valid vertex indices below N; duplicates are collapsed only
as ordered pairs, so the same undirected edge can still appear in both
orientations. -/
theorem edges_valid_endpoints (n : ℕ) (tri : List (ℕ × ℕ × ℕ))
    (h : ∀ t ∈ tri, (t.1 ≠ t.2.1 ∧ t.2.1 ≠ t.2.2 ∧ t.2.2 ≠ t.1)
      ∧ (t.1 < n ∧ t.2.1 < n ∧ t.2.2 < n)) :
    ∀ e ∈ edges_of_simplices tri, e.1 ≠ e.2 ∧ e.1 < n ∧ e.2 < n := by
  intro e he
  rcases mem_edges_foldl tri ∅ e he with habs | ⟨t, ht, hshape⟩
  · exact absurd habs (Finset.not_mem_empty e)
  · obtain ⟨⟨hd1, hd2, hd3⟩, hb1, hb2, hb3⟩ := h t ht
    rcases hshape with rfl | rfl | rfl
    · exact ⟨hd1, hb1, hb2⟩
    · exact ⟨hd2, hb2, hb3⟩
    · exact ⟨hd3, hb3, hb1⟩

/-- Witness for `edges_valid_endpoints` at the two-triangle input. -/
theorem edges_valid_endpoints_witness :
    (∀ t ∈ [((0 : ℕ), (1 : ℕ), (2 : ℕ)), (1, 0, 3)],
      (t.1 ≠ t.2.1 ∧ t.2.1 ≠ t.2.2 ∧ t.2.2 ≠ t.1) ∧ (t.1 < 4 ∧ t.2.1 < 4 ∧ t.2.2 < 4))
      ∧ (∀ e ∈ edges_of_simplices [(0, 1, 2), (1, 0, 3)],
          e.1 ≠ e.2 ∧ e.1 < 4 ∧ e.2 < 4) :=
  ⟨by decide, edges_valid_endpoints 4 [(0, 1, 2), (1, 0, 3)] (by decide)⟩

/-- C5: degenerate triangulation.  With zero points, or with only two points,
the script reaches `Delaunay(coordinates)` which raises a `QhullError` that
nothing catches; no graph with N vertices and zero edges is produced and no
validation error is issued — the model evaluates to the propagated library
error at both failing inputs. -/
theorem delaunay_degenerate_crash :
    network_gen [] [] = Except.error "QhullError"
      ∧ network_gen [("ramps", [((0 : ℚ), (0 : ℚ)), (1, 1)])] []
          = Except.error "QhullError"
      ∧ network_gen [("ramps", [((0 : ℚ), (0 : ℚ)), (1, 1), (2, 2)])] []
          = Except.error "QhullError" := by
  refine ⟨rfl, rfl, ?_⟩
  simp [network_gen, extract_points, qhull_degenerate, cross_z]

/-- C8: the ingestion loop of network_gen.py performs no validation: a record
with latitude 999 (outside [-90, 90]), longitude 300 (outside [-180, 180]) and
a feature tag outside the twelve-category enumeration is silently appended to
the coordinate and feature lists instead of being rejected. -/
theorem ingestion_accepts_invalid :
    extract_points [("bogus_type", [((999 : ℚ), (300 : ℚ))])]
        = ([(999, 300)], ["bogus_type"])
      ∧ ¬ ((999 : ℚ) ≤ 90)
      ∧ ¬ ((300 : ℚ) ≤ 180)
      ∧ "bogus_type" ∉ feature_types := by decide

/-! ## clean_cluster_data.py : batch z-score normalization (lines 112-138)

Python floats are modelled as real numbers because `std_dev` calls
`math.sqrt`.  Python's `min`/`max` raise `ValueError` on an empty sequence,
modelled as `Option`; `round(x, 4)` rounds half to even on the 4th decimal. -/

noncomputable section

/-- Python `min(l)`: defined only for non-empty lists. -/
def list_min : List ℝ → Option ℝ
  | [] => none
  | x :: xs => some (xs.foldl min x)

/-- Python `max(l)`: defined only for non-empty lists. -/
def list_max : List ℝ → Option ℝ
  | [] => none
  | x :: xs => some (xs.foldl max x)

/-- Line 114: `sum(scores)/len(scores) if scores else 0`. -/
def mean_score (scores : List ℝ) : ℝ :=
  if scores.isEmpty then 0 else scores.sum / (scores.length : ℝ)

/-- Line 115: population standard deviation, guarded by `len > 1`. -/
def std_dev (scores : List ℝ) : ℝ :=
  if 1 < scores.length then
    Real.sqrt ((scores.map (fun x => (x - mean_score scores) ^ 2)).sum
      / (scores.length : ℝ))
  else 0

/-- Lines 118-124: per-score z value, 0 whenever `std_dev` is not positive. -/
def z_scores (scores : List ℝ) : List ℝ :=
  scores.map (fun x =>
    if 0 < std_dev scores then (x - mean_score scores) / std_dev scores else 0)

/-- Round half to even to the nearest integer, as Python's `round` does. -/
def roundHalfEven (x : ℝ) : ℤ :=
  if Int.fract x < 1 / 2 then ⌊x⌋
  else if 1 / 2 < Int.fract x then ⌈x⌉
  else if Even ⌊x⌋ then ⌊x⌋ else ⌊x⌋ + 1

/-- Python `round(x, 4)`. -/
def round4 (x : ℝ) : ℝ := ((roundHalfEven (x * 10000) : ℤ) : ℝ) / 10000

/-- Lines 126-138: take the min and max of the z-scores (the uncaught
`ValueError` of `min([])` is `none`), then rescale each z-score into [-1, 1]
when max exceeds min, else assign 0, rounding to 4 decimals. -/
def normalized_scores (scores : List ℝ) : Option (List ℝ) :=
  (list_min (z_scores scores)).bind (fun mn =>
    (list_max (z_scores scores)).map (fun mx =>
      (z_scores scores).map (fun z =>
        round4 (if mx > mn then 2 * ((z - mn) / (mx - mn)) - 1 else 0))))

end

/-! ### Lemmas about folded minima and maxima -/

lemma foldl_min_le_init (xs : List ℝ) (x : ℝ) : xs.foldl min x ≤ x := by
  induction xs generalizing x with
  | nil => simp
  | cons y ys ih => exact le_trans (ih (min x y)) (min_le_left x y)

lemma foldl_min_le_mem (xs : List ℝ) (x : ℝ) {a : ℝ} (ha : a ∈ xs) :
    xs.foldl min x ≤ a := by
  induction xs generalizing x with
  | nil => cases ha
  | cons y ys ih =>
    rcases List.mem_cons.mp ha with rfl | ha
    · exact le_trans (foldl_min_le_init ys (min x a)) (min_le_right x a)
    · exact ih (min x y) ha

lemma foldl_min_mem (xs : List ℝ) (x : ℝ) : xs.foldl min x ∈ x :: xs := by
  induction xs generalizing x with
  | nil => simp
  | cons y ys ih =>
    have hmem := ih (min x y)
    rcases List.mem_cons.mp hmem with hh | hh
    · rcases min_choice x y with hc | hc
      · rw [List.foldl_cons, hh, hc]
        exact List.mem_cons_self _ _
      · rw [List.foldl_cons, hh, hc]
        exact List.mem_cons_of_mem _ (List.mem_cons_self _ _)
    · exact List.mem_cons_of_mem _ (List.mem_cons_of_mem _ hh)

lemma foldl_max_init_le (xs : List ℝ) (x : ℝ) : x ≤ xs.foldl max x := by
  induction xs generalizing x with
  | nil => simp
  | cons y ys ih => exact le_trans (le_max_left x y) (ih (max x y))

lemma foldl_max_mem_le (xs : List ℝ) (x : ℝ) {a : ℝ} (ha : a ∈ xs) :
    a ≤ xs.foldl max x := by
  induction xs generalizing x with
  | nil => cases ha
  | cons y ys ih =>
    rcases List.mem_cons.mp ha with rfl | ha
    · exact le_trans (le_max_right x a) (foldl_max_init_le ys (max x a))
    · exact ih (max x y) ha

lemma foldl_max_mem (xs : List ℝ) (x : ℝ) : xs.foldl max x ∈ x :: xs := by
  induction xs generalizing x with
  | nil => simp
  | cons y ys ih =>
    have hmem := ih (max x y)
    rcases List.mem_cons.mp hmem with hh | hh
    · rcases max_choice x y with hc | hc
      · rw [List.foldl_cons, hh, hc]
        exact List.mem_cons_self _ _
      · rw [List.foldl_cons, hh, hc]
        exact List.mem_cons_of_mem _ (List.mem_cons_self _ _)
    · exact List.mem_cons_of_mem _ (List.mem_cons_of_mem _ hh)

lemma list_min_of_ne_nil {l : List ℝ} (h : l ≠ []) : ∃ mn, list_min l = some mn := by
  cases l with
  | nil => exact absurd rfl h
  | cons x xs => exact ⟨xs.foldl min x, rfl⟩

lemma list_max_of_ne_nil {l : List ℝ} (h : l ≠ []) : ∃ mx, list_max l = some mx := by
  cases l with
  | nil => exact absurd rfl h
  | cons x xs => exact ⟨xs.foldl max x, rfl⟩

lemma list_min_spec {l : List ℝ} {mn : ℝ} (h : list_min l = some mn) :
    mn ∈ l ∧ ∀ a ∈ l, mn ≤ a := by
  cases l with
  | nil => cases h
  | cons x xs =>
    obtain rfl : xs.foldl min x = mn := Option.some.inj h
    refine ⟨foldl_min_mem xs x, ?_⟩
    intro a ha
    rcases List.mem_cons.mp ha with rfl | ha
    · exact foldl_min_le_init xs a
    · exact foldl_min_le_mem xs x ha

lemma list_max_spec {l : List ℝ} {mx : ℝ} (h : list_max l = some mx) :
    mx ∈ l ∧ ∀ a ∈ l, a ≤ mx := by
  cases l with
  | nil => cases h
  | cons x xs =>
    obtain rfl : xs.foldl max x = mx := Option.some.inj h
    refine ⟨foldl_max_mem xs x, ?_⟩
    intro a ha
    rcases List.mem_cons.mp ha with rfl | ha
    · exact foldl_max_init_le xs a
    · exact foldl_max_mem_le xs x ha

/-! ### Lemmas about half-even rounding -/

lemma roundHalfEven_intCast (n : ℤ) : roundHalfEven (n : ℝ) = n := by
  unfold roundHalfEven
  rw [Int.fract_intCast, if_pos (by norm_num : (0 : ℝ) < 1 / 2), Int.floor_intCast]

lemma floor_le_roundHalfEven (x : ℝ) : ⌊x⌋ ≤ roundHalfEven x := by
  unfold roundHalfEven
  by_cases h1 : Int.fract x < 1 / 2
  · rw [if_pos h1]
  · rw [if_neg h1]
    by_cases h2 : 1 / 2 < Int.fract x
    · rw [if_pos h2]
      exact Int.floor_le_ceil x
    · rw [if_neg h2]
      by_cases h3 : Even ⌊x⌋
      · rw [if_pos h3]
      · rw [if_neg h3]
        omega

lemma roundHalfEven_le_ceil (x : ℝ) : roundHalfEven x ≤ ⌈x⌉ := by
  unfold roundHalfEven
  by_cases h1 : Int.fract x < 1 / 2
  · rw [if_pos h1]
    exact Int.floor_le_ceil x
  · rw [if_neg h1]
    by_cases h2 : 1 / 2 < Int.fract x
    · rw [if_pos h2]
    · rw [if_neg h2]
      have hf : Int.fract x = 1 / 2 := le_antisymm (not_lt.mp h2) (not_lt.mp h1)
      have hfl : (⌊x⌋ : ℝ) < x := by
        have hadd := Int.floor_add_fract x
        rw [hf] at hadd
        linarith
      have hlt : ⌊x⌋ < ⌈x⌉ := by
        exact_mod_cast lt_of_lt_of_le hfl (Int.le_ceil x)
      by_cases h3 : Even ⌊x⌋
      · rw [if_pos h3]
        exact le_of_lt hlt
      · rw [if_neg h3]
        omega

lemma round4_le_one {x : ℝ} (h : x ≤ 1) : round4 x ≤ 1 := by
  unfold round4
  rw [div_le_one (by norm_num : (0 : ℝ) < 10000)]
  have h1 : roundHalfEven (x * 10000) ≤ ⌈x * 10000⌉ := roundHalfEven_le_ceil _
  have h2 : ⌈x * 10000⌉ ≤ (10000 : ℤ) := by
    rw [Int.ceil_le]
    push_cast
    linarith
  have : roundHalfEven (x * 10000) ≤ (10000 : ℤ) := le_trans h1 h2
  exact_mod_cast this

lemma neg_one_le_round4 {x : ℝ} (h : -1 ≤ x) : -1 ≤ round4 x := by
  unfold round4
  rw [le_div_iff₀ (by norm_num : (0 : ℝ) < 10000)]
  have h1 : ⌊x * 10000⌋ ≤ roundHalfEven (x * 10000) := floor_le_roundHalfEven _
  have h2 : (-10000 : ℤ) ≤ ⌊x * 10000⌋ := by
    rw [Int.le_floor]
    push_cast
    linarith
  have : (-10000 : ℤ) ≤ roundHalfEven (x * 10000) := le_trans h2 h1
  calc (-1 : ℝ) * 10000 = ((-10000 : ℤ) : ℝ) := by norm_num
    _ ≤ _ := by exact_mod_cast this

lemma round4_neg_one : round4 (-1) = -1 := by
  unfold round4
  have hc : (-1 : ℝ) * 10000 = ((-10000 : ℤ) : ℝ) := by norm_num
  rw [hc, roundHalfEven_intCast]
  norm_num

lemma round4_one : round4 1 = 1 := by
  unfold round4
  have hc : (1 : ℝ) * 10000 = ((10000 : ℤ) : ℝ) := by norm_num
  rw [hc, roundHalfEven_intCast]
  norm_num

lemma round4_zero : round4 0 = 0 := by
  unfold round4
  have hc : (0 : ℝ) * 10000 = ((0 : ℤ) : ℝ) := by norm_num
  rw [hc, roundHalfEven_intCast]
  norm_num

/-! ### Lemmas about the z-score pass -/

lemma sum_of_const {l : List ℝ} {a : ℝ} (h : ∀ x ∈ l, x = a) :
    l.sum = (l.length : ℝ) * a := by
  induction l with
  | nil => simp
  | cons y ys ih =>
    rw [List.sum_cons, ih (fun x hx => h x (List.mem_cons_of_mem y hx)),
      h y (List.mem_cons_self y ys)]
    simp only [List.length_cons]
    push_cast
    ring

lemma mean_of_const {l : List ℝ} {a : ℝ} (hne : l ≠ []) (h : ∀ x ∈ l, x = a) :
    mean_score l = a := by
  unfold mean_score
  rw [if_neg (by simpa [List.isEmpty_iff] using hne), sum_of_const h]
  have hlen : (l.length : ℝ) ≠ 0 := by
    have := List.length_pos.mpr hne
    positivity
  field_simp

lemma z_scores_all_zero {l : List ℝ} (hne : l ≠ []) (h : ∀ x ∈ l, ∀ y ∈ l, x = y) :
    ∀ z ∈ z_scores l, z = 0 := by
  intro z hz
  obtain ⟨x, hx, rfl⟩ := List.mem_map.mp hz
  have hmean : mean_score l = x := mean_of_const hne (fun y hy => h y hy x hx)
  rw [hmean]
  simp [sub_self]

lemma zip_map_spec {α β : Type} (l : List α) (f : α → β) :
    ∀ p ∈ l.zip (l.map f), p.1 ∈ l ∧ p.2 = f p.1 := by
  induction l with
  | nil => intro p hp; cases hp
  | cons x xs ih =>
    intro p hp
    rw [List.map_cons, List.zip_cons_cons] at hp
    rcases List.mem_cons.mp hp with rfl | hp
    · exact ⟨List.mem_cons_self _ _, rfl⟩
    · obtain ⟨h1, h2⟩ := ih p hp
      exact ⟨List.mem_cons_of_mem x h1, h2⟩

/-- C1: batch score normalization.  For every non-empty batch of raw scores the
scorer returns one normalized score per cluster, every normalized score lies in
[-1, 1], a cluster whose z-score is the batch minimum receives exactly -1 and
one at the maximum receives exactly +1 whenever min and max z differ, and when
all raw scores are identical every cluster receives exactly 0 — all without
division by zero or undefined values (the model is total on non-empty input). -/
theorem scorer_normalization (scores : List ℝ) (h : scores ≠ []) :
    ∃ out, normalized_scores scores = some out
      ∧ out.length = scores.length
      ∧ (∀ y ∈ out, -1 ≤ y ∧ y ≤ 1)
      ∧ (∀ mn mx, list_min (z_scores scores) = some mn →
          list_max (z_scores scores) = some mx → mn < mx →
          ∀ p ∈ (z_scores scores).zip out,
            (p.1 = mn → p.2 = -1) ∧ (p.1 = mx → p.2 = 1))
      ∧ ((∀ x ∈ scores, ∀ y ∈ scores, x = y) →
          out = List.replicate scores.length 0) := by
  have hzne : z_scores scores ≠ [] := by
    intro hc
    exact h (List.map_eq_nil_iff.mp hc)
  obtain ⟨mn0, hmn0⟩ := list_min_of_ne_nil hzne
  obtain ⟨mx0, hmx0⟩ := list_max_of_ne_nil hzne
  obtain ⟨hmn_mem, hmn_le⟩ := list_min_spec hmn0
  obtain ⟨hmx_mem, hmx_le⟩ := list_max_spec hmx0
  refine ⟨(z_scores scores).map (fun z =>
      round4 (if mx0 > mn0 then 2 * ((z - mn0) / (mx0 - mn0)) - 1 else 0)),
    ?_, ?_, ?_, ?_, ?_⟩
  · unfold normalized_scores
    rw [hmn0, hmx0]
    rfl
  · rw [List.length_map]
    exact List.length_map scores _
  · intro y hy
    obtain ⟨z, hz, rfl⟩ := List.mem_map.mp hy
    by_cases hlt : mx0 > mn0
    · rw [if_pos hlt]
      have hd : (0 : ℝ) < mx0 - mn0 := sub_pos.mpr hlt
      have h1 : 0 ≤ (z - mn0) / (mx0 - mn0) :=
        div_nonneg (sub_nonneg.mpr (hmn_le z hz)) (le_of_lt hd)
      have h2 : (z - mn0) / (mx0 - mn0) ≤ 1 := by
        rw [div_le_one hd]
        have := hmx_le z hz
        linarith
      exact ⟨neg_one_le_round4 (by linarith), round4_le_one (by linarith)⟩
    · rw [if_neg hlt, round4_zero]
      norm_num
  · intro mn mx hmn hmx hlt p hp
    rw [hmn0] at hmn
    rw [hmx0] at hmx
    obtain rfl := Option.some.inj hmn
    obtain rfl := Option.some.inj hmx
    have hlt' : mx0 > mn0 := hlt
    obtain ⟨hp1, hp2⟩ := zip_map_spec _ _ p hp
    constructor
    · intro hpmn
      rw [hp2, hpmn, if_pos hlt']
      have hc : (2 : ℝ) * ((mn0 - mn0) / (mx0 - mn0)) - 1 = -1 := by
        rw [sub_self, zero_div]
        ring
      rw [hc, round4_neg_one]
    · intro hpmx
      rw [hp2, hpmx, if_pos hlt']
      have hd : mx0 - mn0 ≠ 0 := ne_of_gt (sub_pos.mpr hlt')
      have hc : (2 : ℝ) * ((mx0 - mn0) / (mx0 - mn0)) - 1 = 1 := by
        rw [div_self hd]
        ring
      rw [hc, round4_one]
  · intro hall
    have hz0 := z_scores_all_zero h hall
    have hmn0z : mn0 = 0 := hz0 _ hmn_mem
    have hmx0z : mx0 = 0 := hz0 _ hmx_mem
    have hnlt : ¬ (mx0 > mn0) := by
      rw [hmn0z, hmx0z]
      exact lt_irrefl 0
    refine List.eq_replicate_iff.mpr ⟨?_, ?_⟩
    · rw [List.length_map]
      exact List.length_map scores _
    · intro b hb
      obtain ⟨z, _, rfl⟩ := List.mem_map.mp hb
      rw [if_neg hnlt, round4_zero]

/-- Witness for `scorer_normalization`: the all-identical batch [1.0, 1.0, 1.0]
from the spec's normalization round-trip property. -/
theorem scorer_normalization_witness :
    (([(1 : ℝ), 1, 1] : List ℝ) ≠ [])
      ∧ (∃ out, normalized_scores [(1 : ℝ), 1, 1] = some out
          ∧ out.length = ([(1 : ℝ), 1, 1] : List ℝ).length
          ∧ (∀ y ∈ out, -1 ≤ y ∧ y ≤ 1)
          ∧ (∀ mn mx, list_min (z_scores [(1 : ℝ), 1, 1]) = some mn →
              list_max (z_scores [(1 : ℝ), 1, 1]) = some mx → mn < mx →
              ∀ p ∈ (z_scores [(1 : ℝ), 1, 1]).zip out,
                (p.1 = mn → p.2 = -1) ∧ (p.1 = mx → p.2 = 1))
          ∧ ((∀ x ∈ [(1 : ℝ), 1, 1], ∀ y ∈ [(1 : ℝ), 1, 1], x = y) →
              out = List.replicate ([(1 : ℝ), 1, 1] : List ℝ).length 0)) :=
  ⟨by simp, scorer_normalization [1, 1, 1] (by simp)⟩

/-- C2: empty batch.  The guards on lines 114-115 do define mean and standard
deviation as 0 for an empty batch and the z-score loop yields the empty list,
but line 127 then evaluates `min(z_scores)` on that empty list, which raises an
uncaught `ValueError` (modelled by `none`): the scorer does not terminate
normally with an empty output list. -/
theorem empty_batch_unhandled :
    mean_score [] = 0 ∧ std_dev [] = 0 ∧ z_scores [] = []
      ∧ normalized_scores [] = none :=
  ⟨rfl, rfl, rfl, rfl⟩

/-! ## analysis.py : community detection (line 26)

`g.community_multilevel()` is igraph library code, not part of this
repository, so the detector is modelled from the spec. -/

/-- The undirected graph consumed by the detector: a vertex count and an edge
list over vertex indices. -/
structure IGraph where
  n : ℕ
  edges : List (ℕ × ℕ)

/-- Degree of a vertex: incident edge endpoints. -/
def degree (g : IGraph) (v : ℕ) : ℕ :=
  g.edges.countP (fun e => e.1 == v) + g.edges.countP (fun e => e.2 == v)

/-- Community of a vertex under a membership vector. -/
def comm_of (memb : List ℕ) (v : ℕ) : ℕ := memb.getD v 0

/-- Number of edges internal to community `c`. -/
def intra_edges (g : IGraph) (memb : List ℕ) (c : ℕ) : ℕ :=
  g.edges.countP (fun e => (comm_of memb e.1 == c) && (comm_of memb e.2 == c))

/-- Total degree of community `c`. -/
def total_degree (g : IGraph) (memb : List ℕ) (c : ℕ) : ℕ :=
  (((List.range g.n).filter (fun v => comm_of memb v == c)).map (degree g)).sum

/-- Newman modularity of a membership vector (community labels live below
`g.n`, so ranging over them covers every community; empty ones contribute 0). -/
def modularity (g : IGraph) (memb : List ℕ) : ℚ :=
  if g.edges.length = 0 then 0
  else
    ((List.range g.n).map (fun c =>
      (intra_edges g memb c : ℚ) / (g.edges.length : ℚ)
        - ((total_degree g memb c : ℚ) / (2 * (g.edges.length : ℚ))) ^ 2)).sum

/-- Communities of the neighbours of `v`: the candidate targets of a local
move. -/
def neighbor_comms (g : IGraph) (memb : List ℕ) (v : ℕ) : List ℕ :=
  g.edges.filterMap (fun e =>
    if e.1 = v then some (comm_of memb e.2)
    else if e.2 = v then some (comm_of memb e.1) else none)

/-- Candidate comparison: keep the candidate of strictly larger modularity, and
on an exact tie prefer the smaller community id (a fixed deterministic
tie-break). -/
def better_comm (g : IGraph) (memb : List ℕ) (v : ℕ) (best c : ℕ) : ℕ :=
  if modularity g (memb.set v c) > modularity g (memb.set v best) then c
  else if modularity g (memb.set v c) = modularity g (memb.set v best) ∧ c < best then c
  else best

/-- The greedy move for vertex `v`: the best neighbouring community, adopted
only when it strictly improves modularity, otherwise the vertex stays (so on
ties the vertex keeps its original community). -/
def best_move (g : IGraph) (memb : List ℕ) (v : ℕ) : ℕ :=
  let cand := (neighbor_comms g memb v).foldl (better_comm g memb v) (comm_of memb v)
  if modularity g (memb.set v cand) > modularity g memb then cand
  else comm_of memb v

/-- One sweep of greedy local moves over the vertices in index order. -/
def local_pass (g : IGraph) (memb : List ℕ) : List ℕ :=
  (List.range g.n).foldl (fun mb v => mb.set v (best_move g mb v)) memb

/-- Sweeps repeat until a fixed point, guarded by an iteration cap. -/
def louvain_loop (g : IGraph) : ℕ → List ℕ → List ℕ
  | 0, memb => memb
  | fuel + 1, memb =>
    if local_pass g memb = memb then memb
    else louvain_loop g fuel (local_pass g memb)

/-- Community labels in order of first occurrence in the membership vector. -/
def first_occs_aux : List ℕ → List ℕ → List ℕ
  | acc, [] => acc
  | acc, a :: l => first_occs_aux (if a ∈ acc then acc else acc ++ [a]) l

def first_occs (l : List ℕ) : List ℕ := first_occs_aux [] l

/-- Final dense relabelling: each label is replaced by its rank among the
distinct labels, giving community ids 0..K-1. -/
def densify (memb : List ℕ) : List ℕ :=
  memb.map (fun a => (first_occs memb).indexOf a)

/-- Modelled from the spec: `community_multilevel` (igraph, called at
analysis.py line 26; its implementation is not in this repository) performs
multilevel greedy modularity optimization — start from singleton communities,
sweep greedy local moves with a deterministic lower-index tie-break under an
iteration cap, and return the partition with densely renumbered community ids.
The spec's fixed tie-break rule is deterministic, so the random seed accepted
for reproducibility influences no decision. -/
def community_multilevel (g : IGraph) (seed : ℕ) : List ℕ :=
  densify (louvain_loop g (g.n + 1) (List.range g.n))

/-! ### Lemmas about the detector -/

lemma local_pass_length (g : IGraph) (memb : List ℕ) :
    (local_pass g memb).length = memb.length := by
  unfold local_pass
  induction (List.range g.n) generalizing memb with
  | nil => rfl
  | cons v l ih =>
    rw [List.foldl_cons, ih]
    exact List.length_set memb v _

lemma louvain_loop_length (g : IGraph) (fuel : ℕ) (memb : List ℕ) :
    (louvain_loop g fuel memb).length = memb.length := by
  induction fuel generalizing memb with
  | zero => rfl
  | succ n ih =>
    rw [louvain_loop]
    by_cases hc : local_pass g memb = memb
    · rw [if_pos hc]
    · rw [if_neg hc, ih]
      exact local_pass_length g memb

lemma mem_first_occs_aux (l : List ℕ) (acc : List ℕ) (x : ℕ) :
    x ∈ first_occs_aux acc l ↔ x ∈ acc ∨ x ∈ l := by
  induction l generalizing acc with
  | nil => simp [first_occs_aux]
  | cons a l ih =>
    simp only [first_occs_aux]
    rw [ih]
    by_cases ha : a ∈ acc
    · rw [if_pos ha]
      simp only [List.mem_cons]
      constructor
      · tauto
      · rintro (h | rfl | h)
        · exact Or.inl h
        · exact Or.inl ha
        · exact Or.inr h
    · rw [if_neg ha]
      simp only [List.mem_append, List.mem_singleton, List.mem_cons]
      tauto

lemma nodup_first_occs_aux (l : List ℕ) (acc : List ℕ) (h : acc.Nodup) :
    (first_occs_aux acc l).Nodup := by
  induction l generalizing acc with
  | nil => exact h
  | cons a l ih =>
    simp only [first_occs_aux]
    by_cases ha : a ∈ acc
    · rw [if_pos ha]
      exact ih acc h
    · rw [if_neg ha]
      refine ih _ ?_
      simp [List.nodup_append, h, ha]

lemma mem_first_occs (l : List ℕ) (x : ℕ) : x ∈ first_occs l ↔ x ∈ l := by
  rw [first_occs, mem_first_occs_aux]
  simp

lemma nodup_first_occs (l : List ℕ) : (first_occs l).Nodup :=
  nodup_first_occs_aux l [] List.nodup_nil

lemma nodup_indexOf_get {l : List ℕ} (hnd : l.Nodup) {j : ℕ} (hj : j < l.length) :
    l.indexOf (l.get ⟨j, hj⟩) = j := by
  have hmem : l.get ⟨j, hj⟩ ∈ l := l.get_mem _ _
  have hlt : l.indexOf (l.get ⟨j, hj⟩) < l.length := List.indexOf_lt_length.mpr hmem
  have hget : l.get ⟨l.indexOf (l.get ⟨j, hj⟩), hlt⟩ = l.get ⟨j, hj⟩ :=
    List.indexOf_get hlt
  have hfin : (⟨l.indexOf (l.get ⟨j, hj⟩), hlt⟩ : Fin l.length) = ⟨j, hj⟩ :=
    (List.Nodup.get_inj_iff hnd).mp hget
  exact congrArg Fin.val hfin

/-- C3: partition totality and dense community ids.  The detector assigns every
vertex of the input graph exactly one community (the membership vector has one
entry per vertex index, so no vertex is lost or duplicated), and the set of
community ids used is exactly 0..K-1 where K is the number of communities. -/
theorem community_partition_total_dense (g : IGraph) (seed : ℕ) :
    (community_multilevel g seed).length = g.n
      ∧ (community_multilevel g seed).toFinset
          = Finset.range ((community_multilevel g seed).toFinset.card) := by
  have hblen : (louvain_loop g (g.n + 1) (List.range g.n)).length = g.n := by
    rw [louvain_loop_length]
    exact List.length_range g.n
  have hplen : (community_multilevel g seed).length = g.n := by
    rw [community_multilevel, densify, List.length_map]
    exact hblen
  have hfo := nodup_first_occs (louvain_loop g (g.n + 1) (List.range g.n))
  have hset : (community_multilevel g seed).toFinset
      = Finset.range (first_occs (louvain_loop g (g.n + 1) (List.range g.n))).length := by
    ext x
    simp only [community_multilevel, densify, List.mem_toFinset, Finset.mem_range,
      List.mem_map]
    constructor
    · rintro ⟨a, ha, rfl⟩
      exact List.indexOf_lt_length.mpr ((mem_first_occs _ a).mpr ha)
    · intro hx
      refine ⟨(first_occs (louvain_loop g (g.n + 1) (List.range g.n))).get ⟨x, hx⟩,
        ?_, ?_⟩
      · exact (mem_first_occs _ _).mp (List.get_mem _ _ _)
      · exact nodup_indexOf_get hfo hx
  refine ⟨hplen, ?_⟩
  rw [hset, Finset.card_range]

/-- C9: determinism of community detection.  Under the spec's fixed
deterministic tie-break rule the seed influences no decision of the detector,
so any two runs on the same graph — in particular two runs with the same
seed — produce the identical partition. -/
theorem community_detection_deterministic (g : IGraph) (s1 s2 : ℕ) :
    community_multilevel g s1 = community_multilevel g s2 := rfl

end Seamless
